import Mathlib

/-
Verification development for the fluent-ffmpeg command builder.

The repository ships the FfmpegCommand class (constructor and clone) in
lib/fluent-ffmpeg.js; the ArgumentList (utils.args), the bounded line ring
(utils.linesRing), the duration parser (utils.timemarkToSeconds), the
input/output registration methods and the command assembler exist in the
repository only as type declarations (types/lib/utils.d.ts) or as
not-implemented stubs, so those parts are modelled from the specification,
as marked on each definition.
-/

namespace FluentFfmpeg

/-! ## Character-level string helpers

The embedding works on the character lists underlying strings so that every
definition reduces inside the kernel (the built-in String.splitOn and
String.toNat? are defined by well-founded recursion and do not). -/

/-- Split a character list on a separator character; like String.splitOn for
a one-character separator, the empty input yields one empty chunk. -/
def splitOnChar (sep : Char) : List Char → List (List Char)
  | [] => [[]]
  | c :: rest =>
    let r := splitOnChar sep rest
    if c = sep then [] :: r
    else
      match r with
      | [] => [[c]]
      | g :: gs => (c :: g) :: gs

/-- The numeric value of a decimal digit character, or none. -/
def digitVal? (c : Char) : Option Nat :=
  if c.isDigit then some (c.toNat - 48) else none

/-- Accumulator loop reading decimal digits left to right. -/
def digitsToNatAux : List Char → Nat → Option Nat
  | [], acc => some acc
  | c :: rest, acc =>
    match digitVal? c with
    | some d => digitsToNatAux rest (acc * 10 + d)
    | none => none

/-- Parse a non-empty all-digit character list as a natural number. -/
def digitsToNat? (l : List Char) : Option Nat :=
  if l.isEmpty then none else digitsToNatAux l 0

/-! ## ArgumentList (modelled from the spec, section 4.1) -/

/-- Whitespace-separated words of a string: the maximal space-free non-empty
chunks, in order. Used by the single-argument convenience form of add. -/
def wordsOf (t : String) : List String :=
  ((splitOnChar ' ' t.data).filter (fun w => w ≠ [])).map String.mk

/-- Modelled from the spec: the add operation of utils.args (utils.js is not
under src, only its declaration in types/lib/utils.d.ts). Appends one logical
argument to the flattened token list; a single string containing exactly two
whitespace-separated words is split into a flag/value pair; calls with any
other number of arguments append the strings unchanged. -/
def argsAdd (ts : List String) (l : List String) : List String :=
  match ts with
  | [t] =>
    match wordsOf t with
    | [w1, w2] => l ++ [w1, w2]
    | _ => l ++ [t]
  | _ => l ++ ts

/-- Modelled from the spec: the find operation of utils.args (utils.js is not
under src). Returns the values following the most recently added occurrence
of the flag (up to the given arity), or none when the flag is absent. It is a
total function: no input makes it fail. -/
def argsFind (l : List String) (flag : String) (count : Nat) : Option (List String) :=
  match l with
  | [] => none
  | t :: rest =>
    match argsFind rest flag count with
    | some r => some r
    | none => if t = flag then some (rest.take count) else none

/-- Modelled from the spec: the remove operation of utils.args (utils.js is
not under src). Deletes the first occurrence of the flag together with the
following count values; a list without the flag is returned unchanged. It is
a total function: no input makes it fail. -/
def argsRemove (l : List String) (flag : String) (count : Nat) : List String :=
  match l with
  | [] => []
  | t :: rest => if t = flag then rest.drop count else t :: argsRemove rest flag count

/-! ## Bounded line ring (modelled from the spec, section 4.6) -/

/-- Modelled from the spec: the state of utils.linesRing (utils.js is not
under src, only its declaration in types/lib/utils.d.ts). A fixed capacity
(0 meaning unbounded), the retained lines in arrival order, and whether the
ring has been closed. -/
structure LinesRing where
  maxLines : Nat
  lines : List String
  closed : Bool
deriving DecidableEq

/-- A fresh ring of the given capacity. -/
def mkRing (n : Nat) : LinesRing :=
  { maxLines := n, lines := [], closed := false }

/-- Modelled from the spec: append drops the oldest retained line once the
ring is at capacity (FIFO eviction); appending to a closed ring is a no-op. -/
def ringAppend (r : LinesRing) (line : String) : LinesRing :=
  if r.closed then r
  else if r.maxLines ≠ 0 ∧ r.lines.length = r.maxLines then
    { r with lines := r.lines.tail ++ [line] }
  else
    { r with lines := r.lines ++ [line] }

/-- Modelled from the spec: get returns the retained lines joined in their
original order. -/
def ringGet (r : LinesRing) : String :=
  String.intercalate "\n" r.lines

/-- Modelled from the spec: close releases the retained storage; subsequent
appends are no-ops. -/
def ringClose (r : LinesRing) : LinesRing :=
  { r with lines := [], closed := true }

/-- Append a whole list of lines, left to right. -/
def ringAppendAll (r : LinesRing) (ls : List String) : LinesRing :=
  ls.foldl ringAppend r

/-! ## Duration parsing (modelled from the spec, section 4.5) -/

/-- Milliseconds denoted by a fraction-digit list: digits are read
left-aligned at millisecond precision (at least millisecond precision is
preserved; further digits are truncated). A non-digit or an empty fraction is
a parse failure. -/
def fracToMillis (f : List Char) : Option Nat :=
  if f.isEmpty || !(f.all Char.isDigit) then none
  else digitsToNat? ((f ++ ['0', '0', '0']).take 3)

/-- Parse a seconds field, either bare digits or digits with a fraction. -/
def secondsFieldToMillis (f : List Char) : Option Nat :=
  match splitOnChar '.' f with
  | [i] => (digitsToNat? i).map (fun n => n * 1000)
  | [i, fr] =>
    match digitsToNat? i, fracToMillis fr with
    | some n, some m => some (n * 1000 + m)
    | _, _ => none
  | _ => none

/-- Modelled from the spec: utils.timemarkToSeconds (utils.js is not under
src, only its declaration in types/lib/utils.d.ts), with durations carried as
integer milliseconds to keep the embedding exact. Accepts the canonical
hh:mm:ss and mm:ss forms with an optional fraction, and the bare-seconds
numeric forms with an optional trailing s; negative or malformed timemarks
yield a parse failure (none). -/
def timemarkToMillis (t : String) : Option Nat :=
  match splitOnChar ':' t.data with
  | [single] =>
    let bare := if single.getLast? = some 's' then single.dropLast else single
    secondsFieldToMillis bare
  | [mm, ss] =>
    match digitsToNat? mm, secondsFieldToMillis ss with
    | some m, some sm => some (m * 60000 + sm)
    | _, _ => none
  | [hh, mm, ss] =>
    match digitsToNat? hh, digitsToNat? mm, secondsFieldToMillis ss with
    | some h, some m, some sm => some (h * 3600000 + m * 60000 + sm)
    | _, _, _ => none
  | _ => none

/-- Zero-pad a numeral to at least two digits. -/
def pad2 (n : Nat) : String :=
  if n < 10 then "0" ++ toString n else toString n

/-- Zero-pad a numeral to at least three digits. -/
def pad3 (n : Nat) : String :=
  if n < 10 then "00" ++ toString n
  else if n < 100 then "0" ++ toString n
  else toString n

/-- Modelled from the spec: the inverse duration conversion, emitting the
canonical zero-padded hh:mm:ss.ms form (hours may exceed 24 and are not
wrapped to days). -/
def millisToTimemark (ms : Nat) : String :=
  pad2 (ms / 3600000) ++ ":" ++ pad2 (ms / 60000 % 60) ++ ":" ++
    pad2 (ms / 1000 % 60) ++ "." ++ pad3 (ms % 1000)

/-! ## Theorems about the ArgumentList operations -/

/-- C4: a call of add with a single string argument containing exactly two
whitespace-separated words splits it into a flag/value pair of two tokens; a
call with more than one argument never splits any of its strings. -/
theorem argsAdd_split_rule :
    (∀ t l w1 w2, wordsOf t = [w1, w2] → argsAdd [t] l = l ++ [w1, w2])
    ∧ (∀ (ts l : List String), 2 ≤ ts.length → argsAdd ts l = l ++ ts) := by
  constructor
  · intro t l w1 w2 hw
    simp [argsAdd, hw]
  · intro ts l h
    match ts, h with
    | t1 :: t2 :: rest, _ => rfl

theorem argsAdd_split_rule_witness :
    wordsOf "-f mp4" = ["-f", "mp4"]
    ∧ argsAdd ["-f mp4"] [] = [] ++ ["-f", "mp4"]
    ∧ argsAdd ["-f mp4", "-y"] [] = [] ++ ["-f mp4", "-y"] :=
  ⟨by decide, argsAdd_split_rule.1 "-f mp4" [] "-f" "mp4" (by decide),
    argsAdd_split_rule.2 ["-f mp4", "-y"] [] (by decide)⟩

/-- C5: remove and find on a flag absent from the list are a no-op and an
empty result respectively; both are total functions, so no ArgumentList
operation can fail on an unknown flag. -/
theorem absent_flag_noop (l : List String) (flag : String) (count : Nat)
    (h : flag ∉ l) :
    argsRemove l flag count = l ∧ argsFind l flag count = none := by
  induction l with
  | nil => exact ⟨rfl, rfl⟩
  | cons t rest ih =>
    have ht : ¬(t = flag) := fun e => h (e ▸ List.mem_cons_self t rest)
    have hr : flag ∉ rest := fun hm => h (List.mem_cons_of_mem _ hm)
    obtain ⟨h1, h2⟩ := ih hr
    refine ⟨?_, ?_⟩
    · simp [argsRemove, ht, h1]
    · simp [argsFind, h2, ht]

theorem absent_flag_noop_witness :
    ("-x" ∉ (["-y", "1"] : List String))
    ∧ argsRemove ["-y", "1"] "-x" 1 = ["-y", "1"]
    ∧ argsFind ["-y", "1"] "-x" 1 = none :=
  ⟨by decide, (absent_flag_noop ["-y", "1"] "-x" 1 (by decide)).1,
    (absent_flag_noop ["-y", "1"] "-x" 1 (by decide)).2⟩

/-! ## Theorems about the bounded line ring -/

theorem ringAppendAll_lines (ls : List String) : ∀ r : LinesRing,
    r.maxLines ≠ 0 → r.closed = false → r.lines.length ≤ r.maxLines →
    (ringAppendAll r ls).lines
      = (r.lines ++ ls).drop (r.lines.length + ls.length - r.maxLines) := by
  induction ls with
  | nil =>
    intro r h0 hc hl
    have he : r.lines.length - r.maxLines = 0 := by omega
    simp [ringAppendAll, he]
  | cons a ls ih =>
    intro r h0 hc hl
    have hstep : ringAppendAll r (a :: ls) = ringAppendAll (ringAppend r a) ls := rfl
    rw [hstep]
    by_cases hfull : r.lines.length = r.maxLines
    · have happ : ringAppend r a = { r with lines := r.lines.tail ++ [a] } := by
        simp [ringAppend, hc, h0, hfull]
      rw [happ]
      match hnil : r.lines with
      | [] => rw [hnil] at hfull; simp at hfull; omega
      | x :: l2 =>
        have hlen2 : (l2 ++ [a]).length ≤ r.maxLines := by
          have := hfull
          rw [hnil] at this
          simp at this ⊢
          omega
        have := ih { r with lines := (x :: l2).tail ++ [a] } h0 hc (by simpa using hlen2)
        simp only [List.tail_cons] at this ⊢
        rw [this]
        have hidx : (l2 ++ [a]).length + ls.length - r.maxLines = ls.length := by
          have := hfull; rw [hnil] at this; simp at this ⊢; omega
        have hidx2 : (x :: l2).length + (a :: ls).length - r.maxLines = ls.length + 1 := by
          have := hfull; rw [hnil] at this; simp at this ⊢; omega
        rw [hidx, hidx2]
        show (l2 ++ [a] ++ ls).drop ls.length = ((x :: (l2 ++ a :: ls))).drop (ls.length + 1)
        rw [List.drop_succ_cons]
        rw [List.append_assoc]
        rfl
    · have happ : ringAppend r a = { r with lines := r.lines ++ [a] } := by
        simp [ringAppend, hc]
        intro _ h
        exact absurd h hfull
      rw [happ]
      have hlen2 : (r.lines ++ [a]).length ≤ r.maxLines := by
        simp
        omega
      have := ih { r with lines := r.lines ++ [a] } h0 hc hlen2
      rw [this]
      have hidx : (r.lines ++ [a]).length + ls.length - r.maxLines
          = r.lines.length + (a :: ls).length - r.maxLines := by
        simp
        omega
      rw [hidx, List.append_assoc]
      rfl

theorem ringAppendAll_lines_unbounded (ls : List String) : ∀ r : LinesRing,
    r.maxLines = 0 → r.closed = false → (ringAppendAll r ls).lines = r.lines ++ ls := by
  induction ls with
  | nil => intro r h0 hc; simp [ringAppendAll]
  | cons a ls ih =>
    intro r h0 hc
    have hstep : ringAppendAll r (a :: ls) = ringAppendAll (ringAppend r a) ls := rfl
    rw [hstep]
    have happ : ringAppend r a = { r with lines := r.lines ++ [a] } := by
      simp [ringAppend, hc, h0]
    rw [happ]
    rw [ih { r with lines := r.lines ++ [a] } h0 hc]
    rw [List.append_assoc]
    rfl

/-- C6: appending n + k lines to a fresh bounded line ring of capacity n > 0
retains exactly the last n lines in their original order, get joins the
retained lines in order, and capacity 0 retains everything. -/
theorem ring_retention (n k : Nat) (hn : 0 < n) (ls : List String)
    (hlen : ls.length = n + k) :
    (ringAppendAll (mkRing n) ls).lines = ls.drop k
    ∧ ringGet (ringAppendAll (mkRing n) ls) = String.intercalate "\n" (ls.drop k)
    ∧ (ringAppendAll (mkRing 0) ls).lines = ls := by
  have h1 := ringAppendAll_lines ls (mkRing n) (by show n ≠ 0; omega) rfl
    (by show (0 : Nat) ≤ n; omega)
  simp only [show (mkRing n).lines = [] from rfl, show (mkRing n).maxLines = n from rfl,
    List.nil_append, List.length_nil, Nat.zero_add] at h1
  rw [hlen] at h1
  have hk : n + k - n = k := by omega
  rw [hk] at h1
  have h3 := ringAppendAll_lines_unbounded ls (mkRing 0) rfl rfl
  simp only [show (mkRing 0).lines = [] from rfl, List.nil_append] at h3
  exact ⟨h1, by rw [ringGet, h1], h3⟩

theorem ring_retention_witness :
    0 < 2 ∧ (["a", "b", "c"] : List String).length = 2 + 1
    ∧ (ringAppendAll (mkRing 2) ["a", "b", "c"]).lines = ["b", "c"] :=
  ⟨by decide, by decide, (ring_retention 2 1 (by decide) ["a", "b", "c"] (by decide)).1⟩

/-! ## Theorems about duration parsing -/

/-- C7: the parser accepts the canonical timemark forms and the bare-seconds
numeric forms, the inverse emits zero-padded hh:mm:ss.ms, and for the three
representative canonical timemarks the seconds-to-timemark-to-seconds round
trip is exact at millisecond precision (hence within 1 millisecond). -/
theorem timemark_roundtrip :
    timemarkToMillis "01:02:03.450" = some 3723450
    ∧ timemarkToMillis "00:00:00.000" = some 0
    ∧ timemarkToMillis "120:00:00" = some 432000000
    ∧ timemarkToMillis "123.45" = some 123450
    ∧ timemarkToMillis "123.45s" = some 123450
    ∧ millisToTimemark 3723450 = "01:02:03.450"
    ∧ millisToTimemark 0 = "00:00:00.000"
    ∧ millisToTimemark 432000000 = "120:00:00.000"
    ∧ timemarkToMillis (millisToTimemark 3723450) = some 3723450
    ∧ timemarkToMillis (millisToTimemark 0) = some 0
    ∧ timemarkToMillis (millisToTimemark 432000000) = some 432000000 := by
  decide

/-! ## JavaScript values and constructor options

Values that may be passed as the first argument of the FfmpegCommand
constructor (lib/fluent-ffmpeg.js), other than a plain options object:
undefined, null, a string, a number, or an object carrying a readable
property (a readable stream, identified here by a tag). -/

inductive JSVal where
  | undef : JSVal
  | null : JSVal
  | str : String → JSVal
  | num : Int → JSVal
  | stream : Nat → JSVal
deriving DecidableEq

/-- JavaScript truthiness of the modelled values: undefined, null, the empty
string and the number 0 are falsy, everything else is truthy. -/
def truthy : JSVal → Bool
  | .undef => false
  | .null => false
  | .str t => t ≠ ""
  | .num n => n ≠ 0
  | .stream _ => true

/-- The options object accepted by the FfmpegCommand constructor; a field
holding none models an absent key. Loggers are opaque and identified by a
tag. -/
structure FfmpegOptions where
  source : JSVal := JSVal.undef
  stdoutLines : Option Int := none
  niceness : Option Int := none
  priority : Option Int := none
  presets : Option String := none
  preset : Option String := none
  loggerTag : Option Nat := none
  timeout : Option Int := none
deriving DecidableEq

/-- The options object after the constructor has filled in the default
values (lib/fluent-ffmpeg.js lines 60-66 mutate the options object in place
and store it). -/
structure StoredOptions where
  source : JSVal
  stdoutLines : Int
  niceness : Int
  presets : String
  loggerTag : Option Nat
  timeout : Option Int
deriving DecidableEq

/-- JavaScript a-or-b-or-default over an optional numeric field: a falsy
value (absent key or 0) falls through, mirroring the binary or operator. -/
def orNum (v : Option Int) (d : Int) : Int :=
  match v with
  | some n => if n = 0 then d else n
  | none => d

/-- JavaScript a-or-b-or-default over an optional string field: a falsy
value (absent key or empty string) falls through. -/
def orStr (v : Option String) (d : String) : String :=
  match v with
  | some t => if t = "" then d else t
  | none => d

/-- The option defaulting performed by the constructor, lib/fluent-ffmpeg.js
lines 60-63: stdoutLines keeps any present value (an in-operator presence
test, so an explicit 0 is kept) and defaults to 100; presets and niceness use
falsy coalescing with the or operator. -/
def resolveOptions (o : FfmpegOptions) : StoredOptions :=
  { source := o.source
    stdoutLines := match o.stdoutLines with
      | some v => v
      | none => 100
    niceness := orNum o.niceness (orNum o.priority 0)
    presets := orStr o.presets (orStr o.preset "fluent-ffmpeg/lib/presets")
    loggerTag := o.loggerTag
    timeout := o.timeout }

/-! ## The heap of mutable argument lists

JavaScript objects are mutated through references; to state sharing and
isolation facts the embedding keeps every ArgumentList in an explicit store,
and command structures hold indices into it. Stored options objects live in a
second list so that sharing the configuration by reference is expressible. -/

structure Store where
  argLists : List (List String)
  optionObjs : List StoredOptions

/-- Content of the argument list behind an index (unallocated reads give the
empty list; well-formed commands never hold such indices). -/
def Store.read (s : Store) (id : Nat) : List String :=
  s.argLists.getD id []

/-- Overwrite the argument list behind an index. -/
def Store.write (s : Store) (id : Nat) (v : List String) : Store :=
  ⟨s.argLists.set id v, s.optionObjs⟩

/-- Allocate a fresh argument list, returning its index. -/
def Store.alloc (s : Store) (v : List String) : Nat × Store :=
  (s.argLists.length, ⟨s.argLists ++ [v], s.optionObjs⟩)

/-- The empty store. -/
def emptyStore : Store := ⟨[], []⟩

/-- One registered input: its source value and the index of its private
option list (spec section 3, Input). -/
structure InputRef where
  source : JSVal
  optionsId : Nat
deriving DecidableEq

/-- One registered output: optional target, flag set, size data and the
indices of its six private option lists, matching the keys the clone method
in lib/fluent-ffmpeg.js copies: audio, audioFilters, video, videoFilters,
sizeFilters, options, flags and sizeData. -/
structure OutputRef where
  target : Option String
  flags : List String
  sizeData : Option (List (String × String))
  audioId : Nat
  audioFiltersId : Nat
  videoId : Nat
  videoFiltersId : Nat
  sizeFiltersId : Nat
  optionsId : Nat
deriving DecidableEq

/-- The aggregate command: a reference to the shared options object, the
logger reference, the input and output lists, and the two command-wide
argument lists (source fields _global and _complexFilters). -/
structure CommandRef where
  optionsId : Nat
  loggerTag : Option Nat
  inputs : List InputRef
  outputs : List OutputRef
  globalId : Nat
  complexId : Nat
deriving DecidableEq

/-- The six argument-list indices owned by an output. -/
def OutputRef.ids (o : OutputRef) : List Nat :=
  [o.audioId, o.audioFiltersId, o.videoId, o.videoFiltersId, o.sizeFiltersId, o.optionsId]

/-- Every argument-list index reachable from a command. -/
def idsOf (c : CommandRef) : List Nat :=
  c.globalId :: c.complexId ::
    (c.inputs.map InputRef.optionsId ++ c.outputs.flatMap OutputRef.ids)

/-- Well-formedness: every reachable argument-list index and the options
index are allocated. -/
def WF (c : CommandRef) (s : Store) : Prop :=
  (∀ id ∈ idsOf c, id < s.argLists.length) ∧ c.optionsId < s.optionObjs.length

instance decWF (c : CommandRef) (s : Store) : Decidable (WF c s) :=
  inferInstanceAs (Decidable ((∀ id ∈ idsOf c, id < s.argLists.length)
    ∧ c.optionsId < s.optionObjs.length))

/-- Modelled from the spec: input()/addInput (lib/options/inputs.js is not
under src; the stub in lib/fluent-ffmpeg.js throws Not implemented).
Registers a source with a fresh empty option list and makes it the current
input (the current input is the most recently added one). -/
def addInput (c : CommandRef) (s : Store) (src : JSVal) : CommandRef × Store :=
  let p := s.alloc []
  ({ c with inputs := c.inputs ++ [{ source := src, optionsId := p.1 }] }, p.2)

/-- A fresh target-less output with six fresh empty option lists. -/
def newOutput (s : Store) : OutputRef × Store :=
  let n := s.argLists.length
  ({ target := none, flags := [], sizeData := none,
     audioId := n, audioFiltersId := n + 1, videoId := n + 2,
     videoFiltersId := n + 3, sizeFiltersId := n + 4, optionsId := n + 5 },
   ⟨s.argLists ++ [[], [], [], [], [], []], s.optionObjs⟩)

/-- Modelled from the spec: output()/addOutput (lib/options/output.js is not
under src; the stub in lib/fluent-ffmpeg.js throws Not implemented). A
target-less call appends a fresh default output (constructor use); a call
with a target gives the target to the current output when that one is still
target-less, and otherwise appends a fresh output carrying the target. The
current output is the most recently added one. -/
def addOutput (c : CommandRef) (s : Store) (target : Option String) : CommandRef × Store :=
  match target, c.outputs.getLast? with
  | some t, some last =>
    if last.target = none then
      ({ c with outputs := c.outputs.dropLast ++ [{ last with target := some t }] }, s)
    else
      let p := newOutput s
      ({ c with outputs := c.outputs ++ [{ p.1 with target := some t }] }, p.2)
  | some t, none =>
    let p := newOutput s
    ({ c with outputs := c.outputs ++ [{ p.1 with target := some t }] }, p.2)
  | none, _ =>
    let p := newOutput s
    ({ c with outputs := c.outputs ++ [p.1] }, p.2)

/-- The constructor body of lib/fluent-ffmpeg.js lines 44-74, after the
first-argument dispatch has produced the effective options object: register
an input when options.source is truthy, create the default target-less
output, create the _global and _complexFilters argument lists, resolve the
option defaults and store the options object, and keep the logger. -/
def mkCommandCore (o : FfmpegOptions) (s : Store) : CommandRef × Store :=
  let c0 : CommandRef :=
    { optionsId := 0, loggerTag := o.loggerTag, inputs := [], outputs := [],
      globalId := 0, complexId := 0 }
  let p1 := if truthy o.source then addInput c0 s o.source else (c0, s)
  let p2 := addOutput p1.1 p1.2 none
  let g := p2.2.argLists.length
  ({ p2.1 with globalId := g, complexId := g + 1, optionsId := p2.2.optionObjs.length },
   ⟨p2.2.argLists ++ [[], []], p2.2.optionObjs ++ [resolveOptions o]⟩)

/-- The first argument of the constructor: either a non-null object without
a readable property (an options object) or any other value. -/
inductive CtorArg where
  | val : JSVal → CtorArg
  | opts : FfmpegOptions → CtorArg

/-- The constructor dispatch of lib/fluent-ffmpeg.js lines 32-42: an object
without a readable key becomes the options object; null passes the typeof
object test and then crashes the in-operator membership test; every other
value is assigned to options.source of the second argument (defaulted to an
empty object). -/
def mkCommand (input : CtorArg) (options : Option FfmpegOptions) (s : Store) :
    Except String (CommandRef × Store) :=
  match input with
  | .opts o => .ok (mkCommandCore o s)
  | .val .null => .error "TypeError: cannot use the in operator on null"
  | .val v => .ok (mkCommandCore { options.getD {} with source := v } s)

/-- The stored options object of a command. -/
def commandOptions (c : CommandRef) (s : Store) : StoredOptions :=
  s.optionObjs.getD c.optionsId (resolveOptions {})

/-! ## Cloning (lib/fluent-ffmpeg.js lines 129-176) -/

/-- The input-mapping step of clone: each input keeps its source reference
while its option list is deep-copied into a fresh cell
(this._inputs.map with input.options.clone()). -/
def cloneInputs : List InputRef → Store → List InputRef × Store
  | [], s => ([], s)
  | i :: rest, s =>
    let p := s.alloc (s.read i.optionsId)
    let q := cloneInputs rest p.2
    ({ source := i.source, optionsId := p.1 } :: q.1, q.2)

/-- The target-less branch of clone: a single fresh output whose six option
lists are deep copies of the current output's lists and whose flags and
sizeData are value-copied (utils.copy copies enumerable value fields). -/
def cloneOutputLists (cur : OutputRef) (s : Store) : OutputRef × Store :=
  let n := s.argLists.length
  ({ target := none, flags := cur.flags, sizeData := cur.sizeData,
     audioId := n, audioFiltersId := n + 1, videoId := n + 2,
     videoFiltersId := n + 3, sizeFiltersId := n + 4, optionsId := n + 5 },
   ⟨s.argLists ++
      [s.read cur.audioId, s.read cur.audioFiltersId, s.read cur.videoId,
       s.read cur.videoFiltersId, s.read cur.sizeFiltersId, s.read cur.optionsId],
    s.optionObjs⟩)

/-- The output branch of clone, lib/fluent-ffmpeg.js lines 145-168: when the
first output already has a target, the outputs are not cloned and a single
fresh default output is created; otherwise the current output's option
lists, flags and sizeData are deep-copied into a single fresh output. A
command without outputs is unreachable (the source would fail reading
this._outputs[0]); that branch returns an empty output list. -/
def cloneOutputs (c : CommandRef) (s : Store) : List OutputRef × Store :=
  match c.outputs with
  | [] => ([], s)
  | o0 :: _ =>
    if o0.target.isSome then
      let p := newOutput s
      ([p.1], p.2)
    else
      let cur := (c.outputs.getLast?).getD o0
      let p := cloneOutputLists cur s
      ([p.1], p.2)

/-- The clone method of lib/fluent-ffmpeg.js lines 129-176: build a fresh
command (new FfmpegCommand(), whose allocations are immediately discarded but
stay in the store), share the options object and the logger by reference,
deep-copy the inputs, apply the output branch, and deep-copy the _global and
_complexFilters lists. -/
def cloneCmd (c : CommandRef) (s : Store) : CommandRef × Store :=
  let p0 := mkCommandCore {} s
  let pI := cloneInputs c.inputs p0.2
  let pO := cloneOutputs c pI.2
  let g := pO.2.argLists.length
  ({ optionsId := c.optionsId, loggerTag := c.loggerTag, inputs := pI.1,
     outputs := pO.1, globalId := g, complexId := g + 1 },
   ⟨pO.2.argLists ++ [pO.2.read c.globalId, pO.2.read c.complexId], pO.2.optionObjs⟩)

/-! ## Observable state

The dereferenced value of a command: every argument list reachable from it
is replaced by its content (what get() returns), together with the stored
option values and the reference identities of the shared configuration. -/

structure InputObs where
  source : JSVal
  options : List String
deriving DecidableEq

structure OutputObs where
  target : Option String
  flags : List String
  sizeData : Option (List (String × String))
  audio : List String
  audioFilters : List String
  video : List String
  videoFilters : List String
  sizeFilters : List String
  options : List String
deriving DecidableEq

structure CommandObs where
  optionsId : Nat
  loggerTag : Option Nat
  storedOptions : StoredOptions
  inputs : List InputObs
  outputs : List OutputObs
  globalArgs : List String
  complexFilters : List String
deriving DecidableEq

def observeInput (s : Store) (i : InputRef) : InputObs :=
  { source := i.source, options := s.read i.optionsId }

def observeOutput (s : Store) (o : OutputRef) : OutputObs :=
  { target := o.target, flags := o.flags, sizeData := o.sizeData,
    audio := s.read o.audioId, audioFilters := s.read o.audioFiltersId,
    video := s.read o.videoId, videoFilters := s.read o.videoFiltersId,
    sizeFilters := s.read o.sizeFiltersId, options := s.read o.optionsId }

def observe (c : CommandRef) (s : Store) : CommandObs :=
  { optionsId := c.optionsId, loggerTag := c.loggerTag,
    storedOptions := commandOptions c s,
    inputs := c.inputs.map (observeInput s),
    outputs := c.outputs.map (observeOutput s),
    globalArgs := s.read c.globalId,
    complexFilters := s.read c.complexId }

/-! ## Mutating operations

The fluent setters that mutate a command after construction, modelled from
the spec (the option submodules under lib/options are not under src; the
stubs in lib/fluent-ffmpeg.js throw Not implemented). Setters that target
the current input or output act on the most recently added one; a setter
whose target does not exist leaves the state unchanged (the source throws,
mutating nothing). Single-valued setters use find-and-remove before adding,
giving last-call-wins semantics (spec section 4.1). -/

inductive Op where
  | input : String → Op
  | output : String → Op
  | inputOption : List String → Op
  | outputOption : List String → Op
  | globalOption : List String → Op
  | audioBitrate : String → Op
  | videoCodec : String → Op
  | complexFilter : String → Op
  | removeOutputOption : String → Nat → Op

def applyOp (op : Op) (c : CommandRef) (s : Store) : CommandRef × Store :=
  match op with
  | .input src => addInput c s (JSVal.str src)
  | .output t => addOutput c s (some t)
  | .inputOption ts =>
    match c.inputs.getLast? with
    | some i => (c, s.write i.optionsId (argsAdd ts (s.read i.optionsId)))
    | none => (c, s)
  | .outputOption ts =>
    match c.outputs.getLast? with
    | some o => (c, s.write o.optionsId (argsAdd ts (s.read o.optionsId)))
    | none => (c, s)
  | .globalOption ts => (c, s.write c.globalId (argsAdd ts (s.read c.globalId)))
  | .audioBitrate b =>
    match c.outputs.getLast? with
    | some o =>
      (c, s.write o.audioId (argsAdd ["-b:a", b] (argsRemove (s.read o.audioId) "-b:a" 1)))
    | none => (c, s)
  | .videoCodec codec =>
    match c.outputs.getLast? with
    | some o =>
      (c, s.write o.videoId (argsAdd ["-c:v", codec] (argsRemove (s.read o.videoId) "-c:v" 1)))
    | none => (c, s)
  | .complexFilter g => (c, s.write c.complexId [g])
  | .removeOutputOption f n =>
    match c.outputs.getLast? with
    | some o => (c, s.write o.optionsId (argsRemove (s.read o.optionsId) f n))
    | none => (c, s)

/-- Run a sequence of mutating operations left to right. -/
def runOps : List Op → CommandRef → Store → CommandRef × Store
  | [], c, s => (c, s)
  | op :: rest, c, s =>
    let p := applyOp op c s
    runOps rest p.1 p.2

/-! ## Command assembler (modelled from the spec, section 4.3)

The assembler (lib/processor.js) is not under src; the linearization order is
modelled from the spec: global options, then per input its options followed
by its origin token, then the complex filtergraph option when any filters
were declared, then per output its audio, audio-filter, video, video-filter,
size-filter and generic option groups (stream maps enter through the generic
output options group) followed by the target token. -/

/-- The origin token of an input source: the path, or the pipe indicator for
a stream. -/
def sourceToken : JSVal → String
  | .str p => p
  | .stream _ => "pipe:0"
  | _ => ""

/-- The complex filtergraph option block: present only when filters were
declared. -/
def complexPart (c : CommandRef) (s : Store) : List String :=
  if s.read c.complexId = [] then [] else "-filter_complex" :: s.read c.complexId

/-- The argument block of one output. -/
def outputPart (s : Store) (o : OutputRef) : List String :=
  s.read o.audioId ++ s.read o.audioFiltersId ++ s.read o.videoId ++
    s.read o.videoFiltersId ++ s.read o.sizeFiltersId ++ s.read o.optionsId ++
    (match o.target with
     | some t => [t]
     | none => [])

/-- Modelled from the spec: the full linearization into argv. -/
def getArguments (c : CommandRef) (s : Store) : List String :=
  s.read c.globalId
    ++ c.inputs.flatMap (fun i => s.read i.optionsId ++ ["-i", sourceToken i.source])
    ++ complexPart c s
    ++ c.outputs.flatMap (outputPart s)

/-! ## List and store lemmas -/

theorem getD_set_ne {α : Type} :
    ∀ (l : List α) (i j : Nat) (v d : α), i ≠ j → (l.set i v).getD j d = l.getD j d
  | [], _, _, _, _, _ => rfl
  | _ :: _, 0, 0, _, _, h => absurd rfl h
  | _ :: _, 0, _ + 1, _, _, _ => rfl
  | _ :: _, _ + 1, 0, _, _, _ => rfl
  | _ :: l, i + 1, j + 1, v, d, h =>
    getD_set_ne l i j v d (fun e => h (by rw [e]))

theorem getD_append_lt {α : Type} :
    ∀ (l m : List α) (j : Nat) (d : α), j < l.length → (l ++ m).getD j d = l.getD j d
  | [], _, _, _, h => absurd h (by simp)
  | _ :: _, _, 0, _, _ => rfl
  | _ :: l, m, j + 1, d, h => getD_append_lt l m j d (by simpa using h)

theorem getD_append_add {α : Type} :
    ∀ (l m : List α) (k : Nat) (d : α), (l ++ m).getD (l.length + k) d = m.getD k d
  | [], m, k, d => by simp
  | a :: l, m, k, d => by
    have he : (a :: l).length + k = (l.length + k) + 1 := by simp; omega
    rw [he]
    show (l ++ m).getD (l.length + k) d = m.getD k d
    exact getD_append_add l m k d

theorem mem_of_getLast?_eq {α : Type} :
    ∀ (l : List α) (a : α), l.getLast? = some a → a ∈ l
  | [], a, h => by simp [List.getLast?] at h
  | [b], a, h => by
    simp [List.getLast?] at h
    simp [h]
  | b :: x :: t, a, h => by
    rw [List.getLast?_cons_cons] at h
    exact List.mem_cons_of_mem b (mem_of_getLast?_eq (x :: t) a h)

theorem dropLast_concat_of_getLast? {α : Type} :
    ∀ (l : List α) (a : α), l.getLast? = some a → l.dropLast ++ [a] = l
  | [], a, h => by simp [List.getLast?] at h
  | [b], a, h => by
    simp [List.getLast?] at h
    simp [h]
  | b :: x :: t, a, h => by
    rw [List.getLast?_cons_cons] at h
    have := dropLast_concat_of_getLast? (x :: t) a h
    simp only [List.dropLast_cons₂, List.cons_append, this]

theorem read_write_ne (s : Store) (i j : Nat) (v : List String) (h : i ≠ j) :
    (s.write i v).read j = s.read j :=
  getD_set_ne s.argLists i j v [] h

/-- Store extension: the second store is the first with extra cells appended
to both lists; every existing cell keeps its content. -/
def Ext (s s2 : Store) : Prop :=
  (∃ e, s2.argLists = s.argLists ++ e) ∧ (∃ e, s2.optionObjs = s.optionObjs ++ e)

theorem ext_refl (s : Store) : Ext s s :=
  ⟨⟨[], by simp⟩, ⟨[], by simp⟩⟩

theorem ext_trans {a b c : Store} (h1 : Ext a b) (h2 : Ext b c) : Ext a c := by
  obtain ⟨⟨e1, he1⟩, ⟨f1, hf1⟩⟩ := h1
  obtain ⟨⟨e2, he2⟩, ⟨f2, hf2⟩⟩ := h2
  exact ⟨⟨e1 ++ e2, by rw [he2, he1, List.append_assoc]⟩,
    ⟨f1 ++ f2, by rw [hf2, hf1, List.append_assoc]⟩⟩

theorem ext_args (s : Store) (e : List (List String)) :
    Ext s ⟨s.argLists ++ e, s.optionObjs⟩ :=
  ⟨⟨e, rfl⟩, ⟨[], by simp⟩⟩

theorem ext_opts (s : Store) (e : List StoredOptions) :
    Ext s ⟨s.argLists, s.optionObjs ++ e⟩ :=
  ⟨⟨[], by simp⟩, ⟨e, rfl⟩⟩

theorem read_of_ext {s s2 : Store} (h : Ext s s2) {j : Nat}
    (hj : j < s.argLists.length) : s2.read j = s.read j := by
  obtain ⟨⟨e, he⟩, _⟩ := h
  show s2.argLists.getD j [] = s.argLists.getD j []
  rw [he]
  exact getD_append_lt s.argLists e j [] hj

theorem optGetD_of_ext {s s2 : Store} (h : Ext s s2) {j : Nat} (d : StoredOptions)
    (hj : j < s.optionObjs.length) : s2.optionObjs.getD j d = s.optionObjs.getD j d := by
  obtain ⟨_, ⟨e, he⟩⟩ := h
  rw [he]
  exact getD_append_lt s.optionObjs e j d hj

theorem length_le_of_ext {s s2 : Store} (h : Ext s s2) :
    s.argLists.length ≤ s2.argLists.length
      ∧ s.optionObjs.length ≤ s2.optionObjs.length := by
  obtain ⟨⟨e, he⟩, ⟨f, hf⟩⟩ := h
  rw [he, hf]
  simp

/-! ## Membership in the reachable index set -/

theorem mem_idsOf_globalId (c : CommandRef) : c.globalId ∈ idsOf c := by
  simp [idsOf]

theorem mem_idsOf_complexId (c : CommandRef) : c.complexId ∈ idsOf c := by
  simp [idsOf]

theorem mem_idsOf_of_input {c : CommandRef} {i : InputRef} (hi : i ∈ c.inputs) :
    i.optionsId ∈ idsOf c := by
  simp only [idsOf, List.mem_cons, List.mem_append, List.mem_map]
  exact Or.inr (Or.inr (Or.inl ⟨i, hi, rfl⟩))

theorem mem_idsOf_of_output {c : CommandRef} {o : OutputRef} {id : Nat}
    (ho : o ∈ c.outputs) (hid : id ∈ OutputRef.ids o) : id ∈ idsOf c := by
  simp only [idsOf, List.mem_cons, List.mem_append, List.mem_flatMap]
  exact Or.inr (Or.inr (Or.inr ⟨o, ho, hid⟩))

theorem wf_write {c : CommandRef} {s : Store} (wid : Nat) (v : List String)
    (h : WF c s) : WF c (s.write wid v) := by
  obtain ⟨h1, h2⟩ := h
  constructor
  · intro id hid
    have := h1 id hid
    simpa [Store.write, List.length_set] using this
  · simpa [Store.write] using h2

theorem wf_of_ext {c : CommandRef} {s s2 : Store} (h : Ext s s2) (hc : WF c s) :
    WF c s2 := by
  obtain ⟨h1, h2⟩ := hc
  obtain ⟨ha, hb⟩ := length_le_of_ext h
  exact ⟨fun id hid => Nat.lt_of_lt_of_le (h1 id hid) ha, Nat.lt_of_lt_of_le h2 hb⟩

/-! ## Observation congruence -/

theorem observe_congr (c : CommandRef) (s s2 : Store)
    (h : ∀ id ∈ idsOf c, s2.read id = s.read id)
    (ho : s2.optionObjs.getD c.optionsId (resolveOptions {})
        = s.optionObjs.getD c.optionsId (resolveOptions {})) :
    observe c s2 = observe c s := by
  have hin : c.inputs.map (observeInput s2) = c.inputs.map (observeInput s) := by
    apply List.map_congr_left
    intro i hi
    simp [observeInput, h _ (mem_idsOf_of_input hi)]
  have hout : c.outputs.map (observeOutput s2) = c.outputs.map (observeOutput s) := by
    apply List.map_congr_left
    intro o hoo
    have hr : ∀ id ∈ OutputRef.ids o, s2.read id = s.read id :=
      fun id hid => h id (mem_idsOf_of_output hoo hid)
    simp only [OutputRef.ids, List.mem_cons, List.not_mem_nil] at hr
    simp [observeOutput, hr o.audioId (by tauto), hr o.audioFiltersId (by tauto),
      hr o.videoId (by tauto), hr o.videoFiltersId (by tauto),
      hr o.sizeFiltersId (by tauto), hr o.optionsId (by tauto)]
  have hg := h _ (mem_idsOf_globalId c)
  have hcf := h _ (mem_idsOf_complexId c)
  simp only [List.getD_eq_getElem?_getD] at ho
  simp [observe, commandOptions, hin, hout, hg, hcf, ho]

theorem observe_of_ext (c : CommandRef) {s s2 : Store} (h : Ext s s2) (hc : WF c s) :
    observe c s2 = observe c s := by
  apply observe_congr
  · intro id hid
    exact read_of_ext h (hc.1 id hid)
  · exact optGetD_of_ext h _ hc.2

theorem observe_write_frame {c d : CommandRef} (s : Store) (wid : Nat) (v : List String)
    (hwid : wid ∈ idsOf c) (hdis : ∀ id ∈ idsOf d, id ∉ idsOf c) :
    observe d (s.write wid v) = observe d s := by
  apply observe_congr
  · intro id hid
    exact read_write_ne s wid id v (fun e => (hdis id hid) (e ▸ hwid))
  · rfl

/-! ## Structural effect of the operations on the reachable index set -/

theorem mem_idsOf_append_input (c : CommandRef) (i : InputRef) (id : Nat) :
    id ∈ idsOf { c with inputs := c.inputs ++ [i] } ↔
      id ∈ idsOf c ∨ id = i.optionsId := by
  simp only [idsOf, List.mem_cons, List.mem_append, List.mem_map, List.mem_flatMap,
    List.not_mem_nil, or_false]
  constructor
  · rintro (h | h | ⟨j, (hj | hj), hje⟩ | h)
    · exact Or.inl (Or.inl h)
    · exact Or.inl (Or.inr (Or.inl h))
    · exact Or.inl (Or.inr (Or.inr (Or.inl ⟨j, hj, hje⟩)))
    · subst hj; exact Or.inr hje.symm
    · exact Or.inl (Or.inr (Or.inr (Or.inr h)))
  · rintro ((h | h | ⟨j, hj, hje⟩ | h) | h)
    · exact Or.inl h
    · exact Or.inr (Or.inl h)
    · exact Or.inr (Or.inr (Or.inl ⟨j, Or.inl hj, hje⟩))
    · exact Or.inr (Or.inr (Or.inr h))
    · exact Or.inr (Or.inr (Or.inl ⟨i, Or.inr rfl, h.symm⟩))

theorem mem_idsOf_append_output (c : CommandRef) (o : OutputRef) (id : Nat) :
    id ∈ idsOf { c with outputs := c.outputs ++ [o] } ↔
      id ∈ idsOf c ∨ id ∈ OutputRef.ids o := by
  simp only [idsOf, List.mem_cons, List.mem_append, List.mem_map, List.mem_flatMap,
    List.not_mem_nil, or_false]
  constructor
  · rintro (h | h | h | ⟨ob, (hb | hb), hbe⟩)
    · exact Or.inl (Or.inl h)
    · exact Or.inl (Or.inr (Or.inl h))
    · exact Or.inl (Or.inr (Or.inr (Or.inl h)))
    · exact Or.inl (Or.inr (Or.inr (Or.inr ⟨ob, hb, hbe⟩)))
    · subst hb; exact Or.inr hbe
  · rintro ((h | h | h | ⟨ob, hb, hbe⟩) | h)
    · exact Or.inl h
    · exact Or.inr (Or.inl h)
    · exact Or.inr (Or.inr (Or.inl h))
    · exact Or.inr (Or.inr (Or.inr ⟨ob, Or.inl hb, hbe⟩))
    · exact Or.inr (Or.inr (Or.inr ⟨o, Or.inr rfl, h⟩))

theorem idsOf_target_claim (c : CommandRef) (last : OutputRef) (t : String)
    (h : c.outputs.getLast? = some last) :
    idsOf { c with outputs := c.outputs.dropLast ++ [{ last with target := some t }] }
      = idsOf c := by
  have hl := dropLast_concat_of_getLast? c.outputs last h
  simp only [idsOf]
  have hfm : (c.outputs.dropLast ++ [{ last with target := some t }]).flatMap OutputRef.ids
      = c.outputs.flatMap OutputRef.ids := by
    calc (c.outputs.dropLast ++ [{ last with target := some t }]).flatMap OutputRef.ids
        = c.outputs.dropLast.flatMap OutputRef.ids
            ++ OutputRef.ids { last with target := some t } := by
          rw [List.flatMap_append]
          simp
      _ = (c.outputs.dropLast ++ [last]).flatMap OutputRef.ids := by
          rw [List.flatMap_append]
          simp [OutputRef.ids]
      _ = c.outputs.flatMap OutputRef.ids := by rw [hl]
  rw [hfm]

/-! ## The frame property of a single operation -/

/-- Common reasoning for the branches of addOutput that allocate a fresh
output whose six lists occupy the next six cells of the store. -/
theorem frame_fresh_output (c d : CommandRef) (s : Store) (ob : OutputRef)
    (e : List (List String))
    (hids : ∀ id ∈ OutputRef.ids ob,
      s.argLists.length ≤ id ∧ id < s.argLists.length + e.length)
    (hc : WF c s) (hd : WF d s) (hdis : ∀ id ∈ idsOf d, id ∉ idsOf c) :
    observe d (⟨s.argLists ++ e, s.optionObjs⟩ : Store) = observe d s
    ∧ WF { c with outputs := c.outputs ++ [ob] } ⟨s.argLists ++ e, s.optionObjs⟩
    ∧ WF d ⟨s.argLists ++ e, s.optionObjs⟩
    ∧ (∀ id ∈ idsOf d, id ∉ idsOf { c with outputs := c.outputs ++ [ob] }) := by
  have hext := ext_args s e
  refine ⟨observe_of_ext d hext hd, ⟨?_, (wf_of_ext hext hc).2⟩, wf_of_ext hext hd, ?_⟩
  · intro id hid
    rw [mem_idsOf_append_output] at hid
    show id < (s.argLists ++ e).length
    rw [List.length_append]
    rcases hid with hid | hid
    · have := hc.1 id hid
      omega
    · exact (hids id hid).2
  · intro id hid
    rw [mem_idsOf_append_output]
    rintro (hmem | hmem)
    · exact hdis id hid hmem
    · have h1 := hd.1 id hid
      have h2 := (hids id hmem).1
      omega

theorem applyOp_frame (op : Op) (c d : CommandRef) (s : Store)
    (hc : WF c s) (hd : WF d s) (hdis : ∀ id ∈ idsOf d, id ∉ idsOf c) :
    observe d (applyOp op c s).2 = observe d s
    ∧ WF (applyOp op c s).1 (applyOp op c s).2
    ∧ WF d (applyOp op c s).2
    ∧ (∀ id ∈ idsOf d, id ∉ idsOf (applyOp op c s).1) := by
  cases op with
  | input src =>
    have happ : applyOp (Op.input src) c s
        = ({ c with inputs :=
              c.inputs ++ [{ source := JSVal.str src, optionsId := s.argLists.length }] },
           ⟨s.argLists ++ [[]], s.optionObjs⟩) := rfl
    rw [happ]
    have hext := ext_args s [[]]
    refine ⟨observe_of_ext d hext hd, ⟨?_, (wf_of_ext hext hc).2⟩, wf_of_ext hext hd, ?_⟩
    · intro id hid
      rw [mem_idsOf_append_input] at hid
      show id < (s.argLists ++ [[]]).length
      rw [List.length_append]
      rcases hid with hid | hid
      · have := hc.1 id hid
        simp only [List.length_singleton]
        omega
      · simp only [hid, List.length_singleton]
        omega
    · intro id hid
      rw [mem_idsOf_append_input]
      rintro (hmem | hmem)
      · exact hdis id hid hmem
      · have := hd.1 id hid
        simp only [hmem] at this
        omega
  | output t =>
    cases hlast : c.outputs.getLast? with
    | none =>
      have happ : applyOp (Op.output t) c s
          = ({ c with outputs := c.outputs ++ [{ (newOutput s).1 with target := some t }] },
             (newOutput s).2) := by
        simp [applyOp, addOutput, hlast]
      rw [happ]
      exact frame_fresh_output c d s _ _
        (by
          intro id hid
          simp only [newOutput, OutputRef.ids, List.mem_cons, List.not_mem_nil,
            or_false] at hid
          show s.argLists.length ≤ id
            ∧ id < s.argLists.length + ([[], [], [], [], [], []] : List (List String)).length
          simp only [List.length_cons, List.length_nil]
          omega)
        hc hd hdis
    | some last =>
      by_cases htgt : last.target = none
      · have happ : applyOp (Op.output t) c s
            = ({ c with outputs := c.outputs.dropLast ++ [{ last with target := some t }] },
               s) := by
          simp [applyOp, addOutput, hlast, htgt]
        rw [happ]
        refine ⟨rfl, ⟨?_, hc.2⟩, hd, ?_⟩
        · intro id hid
          rw [idsOf_target_claim c last t hlast] at hid
          exact hc.1 id hid
        · intro id hid
          rw [idsOf_target_claim c last t hlast]
          exact hdis id hid
      · have happ : applyOp (Op.output t) c s
            = ({ c with outputs := c.outputs ++ [{ (newOutput s).1 with target := some t }] },
               (newOutput s).2) := by
          simp [applyOp, addOutput, hlast, htgt]
        rw [happ]
        exact frame_fresh_output c d s _ _
          (by
            intro id hid
            simp only [newOutput, OutputRef.ids, List.mem_cons, List.not_mem_nil,
              or_false] at hid
            show s.argLists.length ≤ id
              ∧ id < s.argLists.length + ([[], [], [], [], [], []] : List (List String)).length
            simp only [List.length_cons, List.length_nil]
            omega)
          hc hd hdis
  | inputOption ts =>
    cases hlast : c.inputs.getLast? with
    | none =>
      have happ : applyOp (Op.inputOption ts) c s = (c, s) := by simp [applyOp, hlast]
      rw [happ]
      exact ⟨rfl, hc, hd, hdis⟩
    | some i =>
      have happ : applyOp (Op.inputOption ts) c s
          = (c, s.write i.optionsId (argsAdd ts (s.read i.optionsId))) := by
        simp [applyOp, hlast]
      rw [happ]
      have hwid : i.optionsId ∈ idsOf c :=
        mem_idsOf_of_input (mem_of_getLast?_eq c.inputs i hlast)
      exact ⟨observe_write_frame s _ _ hwid hdis, wf_write _ _ hc, wf_write _ _ hd, hdis⟩
  | outputOption ts =>
    cases hlast : c.outputs.getLast? with
    | none =>
      have happ : applyOp (Op.outputOption ts) c s = (c, s) := by simp [applyOp, hlast]
      rw [happ]
      exact ⟨rfl, hc, hd, hdis⟩
    | some o =>
      have happ : applyOp (Op.outputOption ts) c s
          = (c, s.write o.optionsId (argsAdd ts (s.read o.optionsId))) := by
        simp [applyOp, hlast]
      rw [happ]
      have hwid : o.optionsId ∈ idsOf c :=
        mem_idsOf_of_output (mem_of_getLast?_eq c.outputs o hlast) (by simp [OutputRef.ids])
      exact ⟨observe_write_frame s _ _ hwid hdis, wf_write _ _ hc, wf_write _ _ hd, hdis⟩
  | globalOption ts =>
    have happ : applyOp (Op.globalOption ts) c s
        = (c, s.write c.globalId (argsAdd ts (s.read c.globalId))) := rfl
    rw [happ]
    exact ⟨observe_write_frame s _ _ (mem_idsOf_globalId c) hdis,
      wf_write _ _ hc, wf_write _ _ hd, hdis⟩
  | audioBitrate b =>
    cases hlast : c.outputs.getLast? with
    | none =>
      have happ : applyOp (Op.audioBitrate b) c s = (c, s) := by simp [applyOp, hlast]
      rw [happ]
      exact ⟨rfl, hc, hd, hdis⟩
    | some o =>
      have happ : applyOp (Op.audioBitrate b) c s
          = (c, s.write o.audioId
              (argsAdd ["-b:a", b] (argsRemove (s.read o.audioId) "-b:a" 1))) := by
        simp [applyOp, hlast]
      rw [happ]
      have hwid : o.audioId ∈ idsOf c :=
        mem_idsOf_of_output (mem_of_getLast?_eq c.outputs o hlast) (by simp [OutputRef.ids])
      exact ⟨observe_write_frame s _ _ hwid hdis, wf_write _ _ hc, wf_write _ _ hd, hdis⟩
  | videoCodec codec =>
    cases hlast : c.outputs.getLast? with
    | none =>
      have happ : applyOp (Op.videoCodec codec) c s = (c, s) := by simp [applyOp, hlast]
      rw [happ]
      exact ⟨rfl, hc, hd, hdis⟩
    | some o =>
      have happ : applyOp (Op.videoCodec codec) c s
          = (c, s.write o.videoId
              (argsAdd ["-c:v", codec] (argsRemove (s.read o.videoId) "-c:v" 1))) := by
        simp [applyOp, hlast]
      rw [happ]
      have hwid : o.videoId ∈ idsOf c :=
        mem_idsOf_of_output (mem_of_getLast?_eq c.outputs o hlast) (by simp [OutputRef.ids])
      exact ⟨observe_write_frame s _ _ hwid hdis, wf_write _ _ hc, wf_write _ _ hd, hdis⟩
  | complexFilter g =>
    have happ : applyOp (Op.complexFilter g) c s = (c, s.write c.complexId [g]) := rfl
    rw [happ]
    exact ⟨observe_write_frame s _ _ (mem_idsOf_complexId c) hdis,
      wf_write _ _ hc, wf_write _ _ hd, hdis⟩
  | removeOutputOption f n =>
    cases hlast : c.outputs.getLast? with
    | none =>
      have happ : applyOp (Op.removeOutputOption f n) c s = (c, s) := by
        simp [applyOp, hlast]
      rw [happ]
      exact ⟨rfl, hc, hd, hdis⟩
    | some o =>
      have happ : applyOp (Op.removeOutputOption f n) c s
          = (c, s.write o.optionsId (argsRemove (s.read o.optionsId) f n)) := by
        simp [applyOp, hlast]
      rw [happ]
      have hwid : o.optionsId ∈ idsOf c :=
        mem_idsOf_of_output (mem_of_getLast?_eq c.outputs o hlast) (by simp [OutputRef.ids])
      exact ⟨observe_write_frame s _ _ hwid hdis, wf_write _ _ hc, wf_write _ _ hd, hdis⟩

theorem runOps_frame (ops : List Op) : ∀ (c d : CommandRef) (s : Store),
    WF c s → WF d s → (∀ id ∈ idsOf d, id ∉ idsOf c) →
    observe d (runOps ops c s).2 = observe d s := by
  induction ops with
  | nil => intro c d s _ _ _; rfl
  | cons op rest ih =>
    intro c d s hc hd hdis
    obtain ⟨h1, h2, h3, h4⟩ := applyOp_frame op c d s hc hd hdis
    have hstep : runOps (op :: rest) c s
        = runOps rest (applyOp op c s).1 (applyOp op c s).2 := rfl
    rw [hstep, ih _ _ _ h2 h3 h4, h1]

/-! ## Extension facts for the constructor and clone -/

theorem ext_both (s : Store) (e : List (List String)) (e2 : List StoredOptions) :
    Ext s ⟨s.argLists ++ e, s.optionObjs ++ e2⟩ :=
  ⟨⟨e, rfl⟩, ⟨e2, rfl⟩⟩

theorem ext_addOutput (c : CommandRef) (s : Store) (t : Option String) :
    Ext s (addOutput c s t).2 := by
  rcases t with _ | t0
  · exact ext_args s [[], [], [], [], [], []]
  · cases hl : c.outputs.getLast? with
    | none =>
      have he : (addOutput c s (some t0)).2 = (newOutput s).2 := by
        simp [addOutput, hl]
      rw [he]
      exact ext_args s [[], [], [], [], [], []]
    | some last =>
      by_cases htgt : last.target = none
      · have he : (addOutput c s (some t0)).2 = s := by
          simp [addOutput, hl, htgt]
        rw [he]
        exact ext_refl s
      · have he : (addOutput c s (some t0)).2 = (newOutput s).2 := by
          simp [addOutput, hl, htgt]
        rw [he]
        exact ext_args s [[], [], [], [], [], []]

theorem ext_mkCommandCore (o : FfmpegOptions) (s : Store) :
    Ext s (mkCommandCore o s).2 := by
  have h1 : Ext s (if truthy o.source
      then addInput ⟨0, o.loggerTag, [], [], 0, 0⟩ s o.source
      else (⟨0, o.loggerTag, [], [], 0, 0⟩, s)).2 := by
    by_cases h : truthy o.source
    · rw [if_pos h]
      exact ext_args s [[]]
    · rw [if_neg h]
      exact ext_refl s
  exact ext_trans (ext_trans h1 (ext_addOutput _ _ none)) (ext_both _ [[], []] _)

theorem cloneInputs_cons (i : InputRef) (rest : List InputRef) (s : Store) :
    cloneInputs (i :: rest) s
      = ({ source := i.source, optionsId := s.argLists.length }
          :: (cloneInputs rest ⟨s.argLists ++ [s.read i.optionsId], s.optionObjs⟩).1,
         (cloneInputs rest ⟨s.argLists ++ [s.read i.optionsId], s.optionObjs⟩).2) := rfl

theorem ext_cloneInputs : ∀ (ins : List InputRef) (s : Store),
    Ext s (cloneInputs ins s).2
  | [], s => ext_refl s
  | i :: rest, s => by
    rw [cloneInputs_cons]
    exact ext_trans (ext_args s [s.read i.optionsId])
      (ext_cloneInputs rest ⟨s.argLists ++ [s.read i.optionsId], s.optionObjs⟩)

theorem ext_cloneOutputs (c : CommandRef) (s : Store) :
    Ext s (cloneOutputs c s).2 := by
  cases houts : c.outputs with
  | nil =>
    have he : (cloneOutputs c s).2 = s := by simp [cloneOutputs, houts]
    rw [he]
    exact ext_refl s
  | cons o0 rest =>
    by_cases htgt : o0.target.isSome
    · have he : (cloneOutputs c s).2 = (newOutput s).2 := by
        simp [cloneOutputs, houts, htgt]
      rw [he]
      exact ext_args s [[], [], [], [], [], []]
    · have he : (cloneOutputs c s).2
          = (cloneOutputLists ((c.outputs.getLast?).getD o0) s).2 := by
        simp [cloneOutputs, houts, htgt]
      rw [he]
      exact ext_args s _

theorem ext_cloneCmd (c : CommandRef) (s : Store) : Ext s (cloneCmd c s).2 := by
  have h1 := ext_mkCommandCore {} s
  have h2 := ext_cloneInputs c.inputs (mkCommandCore {} s).2
  have h3 := ext_cloneOutputs c (cloneInputs c.inputs (mkCommandCore {} s).2).2
  exact ext_trans (ext_trans (ext_trans h1 h2) h3) (ext_args _ _)

/-! ## Content of the cells written by clone -/

theorem read_append_fst (s : Store) (v : List String) (e : List (List String)) :
    (⟨s.argLists ++ (v :: e), s.optionObjs⟩ : Store).read s.argLists.length = v := by
  show (s.argLists ++ (v :: e)).getD (s.argLists.length) [] = v
  have := getD_append_add s.argLists (v :: e) 0 []
  simpa using this

theorem read_append_at (s : Store) (e : List (List String)) (k : Nat) :
    (⟨s.argLists ++ e, s.optionObjs⟩ : Store).read (s.argLists.length + k)
      = e.getD k [] :=
  getD_append_add s.argLists e k []

/-! ## Freshness of the indices allocated by clone -/

theorem cloneInputs_fresh : ∀ (ins : List InputRef) (s : Store),
    ∀ i2 ∈ (cloneInputs ins s).1,
      s.argLists.length ≤ i2.optionsId
        ∧ i2.optionsId < (cloneInputs ins s).2.argLists.length
  | [], s => by simp [cloneInputs]
  | i :: rest, s => by
    rw [cloneInputs_cons]
    intro i2 hi2
    rcases List.mem_cons.1 hi2 with he | hm
    · subst he
      have hl := (length_le_of_ext
        (ext_cloneInputs rest ⟨s.argLists ++ [s.read i.optionsId], s.optionObjs⟩)).1
      simp only [List.length_append, List.length_singleton] at hl
      constructor
      · exact Nat.le_refl _
      · show s.argLists.length
          < (cloneInputs rest ⟨s.argLists ++ [s.read i.optionsId], s.optionObjs⟩).2.argLists.length
        omega
    · have := cloneInputs_fresh rest ⟨s.argLists ++ [s.read i.optionsId], s.optionObjs⟩ i2 hm
      simp only [List.length_append, List.length_singleton] at this
      exact ⟨by omega, this.2⟩

theorem cloneOutputs_fresh (c : CommandRef) (s : Store) :
    ∀ ob ∈ (cloneOutputs c s).1, ∀ id ∈ OutputRef.ids ob,
      s.argLists.length ≤ id ∧ id < (cloneOutputs c s).2.argLists.length := by
  cases houts : c.outputs with
  | nil =>
    simp [cloneOutputs, houts]
  | cons o0 rest =>
    by_cases htgt : o0.target.isSome
    · have he : cloneOutputs c s = ([(newOutput s).1], (newOutput s).2) := by
        simp [cloneOutputs, houts, htgt]
      rw [he]
      intro ob hob id hid
      rcases List.mem_singleton.1 hob with rfl
      simp only [newOutput, OutputRef.ids, List.mem_cons, List.not_mem_nil, or_false] at hid
      show s.argLists.length ≤ id
        ∧ id < (s.argLists ++ [[], [], [], [], [], []]).length
      simp only [List.length_append, List.length_cons, List.length_nil]
      omega
    · have he : cloneOutputs c s
          = ([(cloneOutputLists ((c.outputs.getLast?).getD o0) s).1],
             (cloneOutputLists ((c.outputs.getLast?).getD o0) s).2) := by
        simp [cloneOutputs, houts, htgt]
      rw [he]
      intro ob hob id hid
      rcases List.mem_singleton.1 hob with rfl
      simp only [cloneOutputLists, OutputRef.ids, List.mem_cons, List.not_mem_nil,
        or_false] at hid
      show s.argLists.length ≤ id ∧ id < (s.argLists ++ _).length
      simp only [List.length_append, List.length_cons, List.length_nil]
      omega

/-! ## Observation content preserved by clone -/

theorem map_observeInput_ext (ins : List InputRef) {s s2 : Store} (h : Ext s s2)
    (hb : ∀ i ∈ ins, i.optionsId < s.argLists.length) :
    ins.map (observeInput s2) = ins.map (observeInput s) := by
  apply List.map_congr_left
  intro i hi
  simp [observeInput, read_of_ext h (hb i hi)]

theorem cloneInputs_obs : ∀ (ins : List InputRef) (s : Store),
    (∀ i ∈ ins, i.optionsId < s.argLists.length) →
    ∀ s2 : Store, Ext (cloneInputs ins s).2 s2 →
      (cloneInputs ins s).1.map (observeInput s2) = ins.map (observeInput s)
  | [], s, _, s2, _ => by simp [cloneInputs]
  | i :: rest, s, hb, s2, hext => by
    rw [cloneInputs_cons] at hext ⊢
    simp only [List.map_cons]
    have hextS1 : Ext (⟨s.argLists ++ [s.read i.optionsId], s.optionObjs⟩ : Store) s2 :=
      ext_trans (ext_cloneInputs rest _) hext
    have hhead : observeInput s2 { source := i.source, optionsId := s.argLists.length }
        = observeInput s i := by
      have hr : s2.read s.argLists.length = s.read i.optionsId := by
        have h1 : (⟨s.argLists ++ [s.read i.optionsId], s.optionObjs⟩ : Store).read
            s.argLists.length = s.read i.optionsId :=
          read_append_fst s (s.read i.optionsId) []
        rw [read_of_ext hextS1 (by simp), h1]
      simp [observeInput, hr]
    have htail := cloneInputs_obs rest ⟨s.argLists ++ [s.read i.optionsId], s.optionObjs⟩
      (by
        intro j hj
        have := hb j (List.mem_cons_of_mem i hj)
        simp only [List.length_append, List.length_singleton]
        omega)
      s2 hext
    have hconv : rest.map (observeInput
        (⟨s.argLists ++ [s.read i.optionsId], s.optionObjs⟩ : Store))
        = rest.map (observeInput s) :=
      map_observeInput_ext rest (ext_args s _)
        (fun j hj => hb j (List.mem_cons_of_mem i hj))
    rw [hhead, htail, hconv]

theorem observeOutput_ext (o : OutputRef) {s s2 : Store} (h : Ext s s2)
    (hb : ∀ id ∈ OutputRef.ids o, id < s.argLists.length) :
    observeOutput s2 o = observeOutput s o := by
  simp only [OutputRef.ids, List.mem_cons, List.not_mem_nil, or_false] at hb
  simp [observeOutput,
    read_of_ext h (hb o.audioId (by tauto)),
    read_of_ext h (hb o.audioFiltersId (by tauto)),
    read_of_ext h (hb o.videoId (by tauto)),
    read_of_ext h (hb o.videoFiltersId (by tauto)),
    read_of_ext h (hb o.sizeFiltersId (by tauto)),
    read_of_ext h (hb o.optionsId (by tauto))]

theorem cloneOutputs_obs (c : CommandRef) (s : Store) (o0 : OutputRef)
    (h0 : c.outputs = [o0]) (ht : o0.target = none) :
    ∀ s2 : Store, Ext (cloneOutputs c s).2 s2 →
      (cloneOutputs c s).1.map (observeOutput s2) = [observeOutput s o0] := by
  intro s2 hext
  have hnotsome : ¬o0.target.isSome := by simp [ht]
  have hcl : (c.outputs.getLast?).getD o0 = o0 := by simp [h0]
  have he : cloneOutputs c s = ([(cloneOutputLists o0 s).1], (cloneOutputLists o0 s).2) := by
    simp [cloneOutputs, h0, hnotsome, hcl]
  rw [he] at hext ⊢
  simp only [List.map_cons, List.map_nil]
  have hlt : ∀ k : Nat, k < 6 → s.argLists.length + k
      < ((cloneOutputLists o0 s).2).argLists.length := by
    intro k hk
    show s.argLists.length + k < (s.argLists ++ _).length
    simp only [List.length_append, List.length_cons, List.length_nil]
    omega
  have hrd : ∀ k : Nat, k < 6 → s2.read (s.argLists.length + k)
      = ([s.read o0.audioId, s.read o0.audioFiltersId, s.read o0.videoId,
          s.read o0.videoFiltersId, s.read o0.sizeFiltersId, s.read o0.optionsId]
          : List (List String)).getD k [] := by
    intro k hk
    rw [read_of_ext hext (hlt k hk)]
    exact read_append_at s _ k
  have hr0 := hrd 0 (by omega)
  have hr1 := hrd 1 (by omega)
  have hr2 := hrd 2 (by omega)
  have hr3 := hrd 3 (by omega)
  have hr4 := hrd 4 (by omega)
  have hr5 := hrd 5 (by omega)
  simp only [List.getD] at hr0 hr1 hr2 hr3 hr4 hr5
  rw [show s.argLists.length + 0 = s.argLists.length from by omega] at hr0
  simp [observeOutput, cloneOutputLists, ht, hr0, hr1, hr2, hr3, hr4, hr5]

/-! ## The clone method: sharing, deep copies, well-formedness, freshness -/

theorem cloneCmd_ref (c : CommandRef) (s : Store) :
    (cloneCmd c s).1
      = { optionsId := c.optionsId, loggerTag := c.loggerTag,
          inputs := (cloneInputs c.inputs (mkCommandCore {} s).2).1,
          outputs := (cloneOutputs c (cloneInputs c.inputs (mkCommandCore {} s).2).2).1,
          globalId := (cloneOutputs c
            (cloneInputs c.inputs (mkCommandCore {} s).2).2).2.argLists.length,
          complexId := (cloneOutputs c
            (cloneInputs c.inputs (mkCommandCore {} s).2).2).2.argLists.length + 1 } := rfl

theorem cloneCmd_store (c : CommandRef) (s : Store) :
    (cloneCmd c s).2
      = ⟨(cloneOutputs c (cloneInputs c.inputs (mkCommandCore {} s).2).2).2.argLists
          ++ [(cloneOutputs c (cloneInputs c.inputs (mkCommandCore {} s).2).2).2.read
                c.globalId,
              (cloneOutputs c (cloneInputs c.inputs (mkCommandCore {} s).2).2).2.read
                c.complexId],
         (cloneOutputs c (cloneInputs c.inputs (mkCommandCore {} s).2).2).2.optionObjs⟩ := rfl

theorem ext_s_to_pO (c : CommandRef) (s : Store) :
    Ext s (cloneOutputs c (cloneInputs c.inputs (mkCommandCore {} s).2).2).2 :=
  ext_trans (ext_trans (ext_mkCommandCore {} s) (ext_cloneInputs c.inputs _))
    (ext_cloneOutputs c _)

theorem cloneCmd_reads (c : CommandRef) (s : Store) (h : WF c s) :
    (cloneCmd c s).2.read (cloneCmd c s).1.globalId = s.read c.globalId
    ∧ (cloneCmd c s).2.read (cloneCmd c s).1.complexId = s.read c.complexId := by
  rw [cloneCmd_ref, cloneCmd_store]
  have hext := ext_s_to_pO c s
  constructor
  · show Store.read _ _ = s.read c.globalId
    rw [read_append_fst]
    exact read_of_ext hext (h.1 _ (mem_idsOf_globalId c))
  · show Store.read _ ((cloneOutputs c
        (cloneInputs c.inputs (mkCommandCore {} s).2).2).2.argLists.length + 1)
      = s.read c.complexId
    rw [read_append_at _ _ 1]
    show (cloneOutputs c (cloneInputs c.inputs (mkCommandCore {} s).2).2).2.read
        c.complexId = s.read c.complexId
    exact read_of_ext hext (h.1 _ (mem_idsOf_complexId c))

theorem cloneCmd_fresh (c : CommandRef) (s : Store) :
    ∀ id ∈ idsOf (cloneCmd c s).1, s.argLists.length ≤ id := by
  rw [cloneCmd_ref]
  intro id hid
  have hlen1 := (length_le_of_ext (ext_mkCommandCore {} s)).1
  have hlen2 := (length_le_of_ext (ext_cloneInputs c.inputs (mkCommandCore {} s).2)).1
  have hlen3 := (length_le_of_ext
    (ext_cloneOutputs c (cloneInputs c.inputs (mkCommandCore {} s).2).2)).1
  simp only [idsOf, List.mem_cons, List.mem_append, List.mem_map,
    List.mem_flatMap] at hid
  rcases hid with rfl | rfl | ⟨j, hj, rfl⟩ | ⟨ob, hob, hide⟩
  · omega
  · omega
  · have := cloneInputs_fresh c.inputs (mkCommandCore {} s).2 j hj
    omega
  · have := cloneOutputs_fresh c (cloneInputs c.inputs (mkCommandCore {} s).2).2
      ob hob id hide
    omega

theorem cloneCmd_wf (c : CommandRef) (s : Store) (h : WF c s) :
    WF (cloneCmd c s).1 (cloneCmd c s).2 := by
  have hlen1 := (length_le_of_ext (ext_mkCommandCore {} s)).1
  have hlen2 := (length_le_of_ext (ext_cloneInputs c.inputs (mkCommandCore {} s).2)).1
  have hlen3 := (length_le_of_ext
    (ext_cloneOutputs c (cloneInputs c.inputs (mkCommandCore {} s).2).2)).1
  constructor
  · intro id hid
    rw [cloneCmd_ref] at hid
    rw [cloneCmd_store]
    show id < (_ ++ [_, _]).length
    rw [List.length_append]
    simp only [idsOf, List.mem_cons, List.mem_append, List.mem_map,
      List.mem_flatMap] at hid
    rcases hid with rfl | rfl | ⟨j, hj, rfl⟩ | ⟨ob, hob, hide⟩
    · simp
    · simp
    · have := cloneInputs_fresh c.inputs (mkCommandCore {} s).2 j hj
      simp only [List.length_cons, List.length_nil]
      omega
    · have := cloneOutputs_fresh c (cloneInputs c.inputs (mkCommandCore {} s).2).2
        ob hob id hide
      simp only [List.length_cons, List.length_nil]
      omega
  · rw [cloneCmd_ref, cloneCmd_store]
    show c.optionsId < (cloneOutputs c
        (cloneInputs c.inputs (mkCommandCore {} s).2).2).2.optionObjs.length
    have hopt1 := (length_le_of_ext (ext_s_to_pO c s)).2
    have h2 := h.2
    omega

theorem cloneCmd_disjoint (c : CommandRef) (s : Store) (h : WF c s) :
    ∀ id ∈ idsOf c, id ∉ idsOf (cloneCmd c s).1 := by
  intro id hid hmem
  have h1 := h.1 id hid
  have h2 := cloneCmd_fresh c s id hmem
  omega

theorem cloneCmd_disjoint_rev (c : CommandRef) (s : Store) (h : WF c s) :
    ∀ id ∈ idsOf (cloneCmd c s).1, id ∉ idsOf c := by
  intro id hid hmem
  have h1 := h.1 id hmem
  have h2 := cloneCmd_fresh c s id hid
  omega

theorem cloneCmd_inputs_obs (c : CommandRef) (s : Store) (h : WF c s) :
    (cloneCmd c s).1.inputs.map (observeInput (cloneCmd c s).2)
      = c.inputs.map (observeInput s) := by
  rw [cloneCmd_ref, cloneCmd_store]
  have hb0 : ∀ i ∈ c.inputs, i.optionsId < (mkCommandCore {} s).2.argLists.length := by
    intro i hi
    have := h.1 _ (mem_idsOf_of_input hi)
    have hlen1 := (length_le_of_ext (ext_mkCommandCore {} s)).1
    omega
  have hobs := cloneInputs_obs c.inputs (mkCommandCore {} s).2 hb0
    ⟨(cloneOutputs c (cloneInputs c.inputs (mkCommandCore {} s).2).2).2.argLists
        ++ [(cloneOutputs c (cloneInputs c.inputs (mkCommandCore {} s).2).2).2.read
              c.globalId,
            (cloneOutputs c (cloneInputs c.inputs (mkCommandCore {} s).2).2).2.read
              c.complexId],
       (cloneOutputs c (cloneInputs c.inputs (mkCommandCore {} s).2).2).2.optionObjs⟩
    (ext_trans (ext_cloneOutputs c _) (ext_args _ _))
  rw [hobs]
  exact map_observeInput_ext c.inputs (ext_mkCommandCore {} s)
    (fun i hi => h.1 _ (mem_idsOf_of_input hi))

theorem cloneCmd_outputs_obs (c : CommandRef) (s : Store) (h : WF c s)
    (o0 : OutputRef) (h0 : c.outputs = [o0]) (ht : o0.target = none) :
    (cloneCmd c s).1.outputs.map (observeOutput (cloneCmd c s).2)
      = c.outputs.map (observeOutput s) := by
  rw [cloneCmd_ref, cloneCmd_store]
  have hobs := cloneOutputs_obs c (cloneInputs c.inputs (mkCommandCore {} s).2).2 o0 h0 ht
    ⟨(cloneOutputs c (cloneInputs c.inputs (mkCommandCore {} s).2).2).2.argLists
        ++ [(cloneOutputs c (cloneInputs c.inputs (mkCommandCore {} s).2).2).2.read
              c.globalId,
            (cloneOutputs c (cloneInputs c.inputs (mkCommandCore {} s).2).2).2.read
              c.complexId],
       (cloneOutputs c (cloneInputs c.inputs (mkCommandCore {} s).2).2).2.optionObjs⟩
    (ext_args _ _)
  rw [hobs]
  have hoMem : o0 ∈ c.outputs := by
    rw [h0]
    exact List.mem_singleton.2 rfl
  have hb : ∀ id ∈ OutputRef.ids o0, id < s.argLists.length :=
    fun id hid => h.1 id (mem_idsOf_of_output hoMem hid)
  have hconv : observeOutput
      ((cloneInputs c.inputs (mkCommandCore {} s).2).2) o0 = observeOutput s o0 :=
    observeOutput_ext o0
      (ext_trans (ext_mkCommandCore {} s) (ext_cloneInputs c.inputs _)) hb
  rw [hconv, h0]
  simp

/-! ## Claim C1 -/

/-- C1 (amended): clone() shares the options object and the logger by
reference; the Inputs and the _global/_complexFilters argument lists are
independently owned deep copies; the Outputs are deep-copied exactly when the
single first output is still target-less, while a first output that already
has a target makes the clone start over with one fresh default target-less
output instead of a copy; and in every case mutations applied to either
instance after the clone() call leave the other instance's observable state
(including get() on every contained ArgumentList) unchanged. -/
theorem clone_sharing_isolation (c : CommandRef) (s : Store) (h : WF c s) :
    ((cloneCmd c s).1.optionsId = c.optionsId
      ∧ (cloneCmd c s).1.loggerTag = c.loggerTag)
    ∧ observe c (cloneCmd c s).2 = observe c s
    ∧ (observe (cloneCmd c s).1 (cloneCmd c s).2).inputs = (observe c s).inputs
    ∧ (observe (cloneCmd c s).1 (cloneCmd c s).2).globalArgs
        = (observe c s).globalArgs
    ∧ (observe (cloneCmd c s).1 (cloneCmd c s).2).complexFilters
        = (observe c s).complexFilters
    ∧ (∀ o0, c.outputs = [o0] → o0.target = none →
        (observe (cloneCmd c s).1 (cloneCmd c s).2).outputs = (observe c s).outputs)
    ∧ (∀ ops : List Op,
        observe c (runOps ops (cloneCmd c s).1 (cloneCmd c s).2).2
          = observe c (cloneCmd c s).2)
    ∧ (∀ ops : List Op,
        observe (cloneCmd c s).1 (runOps ops c (cloneCmd c s).2).2
          = observe (cloneCmd c s).1 (cloneCmd c s).2) := by
  refine ⟨⟨rfl, rfl⟩, observe_of_ext c (ext_cloneCmd c s) h, ?_, ?_, ?_, ?_, ?_, ?_⟩
  · show (cloneCmd c s).1.inputs.map (observeInput (cloneCmd c s).2)
      = c.inputs.map (observeInput s)
    exact cloneCmd_inputs_obs c s h
  · show (cloneCmd c s).2.read (cloneCmd c s).1.globalId = s.read c.globalId
    exact (cloneCmd_reads c s h).1
  · show (cloneCmd c s).2.read (cloneCmd c s).1.complexId = s.read c.complexId
    exact (cloneCmd_reads c s h).2
  · intro o0 h0 ht
    show (cloneCmd c s).1.outputs.map (observeOutput (cloneCmd c s).2)
      = c.outputs.map (observeOutput s)
    exact cloneCmd_outputs_obs c s h o0 h0 ht
  · intro ops
    exact runOps_frame ops (cloneCmd c s).1 c (cloneCmd c s).2
      (cloneCmd_wf c s h) (wf_of_ext (ext_cloneCmd c s) h) (cloneCmd_disjoint c s h)
  · intro ops
    exact runOps_frame ops c (cloneCmd c s).1 (cloneCmd c s).2
      (wf_of_ext (ext_cloneCmd c s) h) (cloneCmd_wf c s h)
      (cloneCmd_disjoint_rev c s h)

/-- A concrete command: constructed with a source, then given an audio
bitrate and an output target. -/
def cexOrig : CommandRef × Store :=
  runOps [Op.audioBitrate "128k", Op.output "out.mp4"]
    (mkCommandCore { source := JSVal.str "in.avi" } emptyStore).1
    (mkCommandCore { source := JSVal.str "in.avi" } emptyStore).2

/-- The clone of that command. -/
def cexClone : CommandRef × Store := cloneCmd cexOrig.1 cexOrig.2

/-- C1 counterexample: once the first output carries a target, clone() does
not deep-copy the Outputs. Immediately after the clone() call, with no
mutation at all, the clone's observable outputs (one fresh default
target-less output) differ from the original's (one output with target and
audio bitrate), refuting the claim that the clone's Outputs are deep copies
of the original's. -/
theorem clone_outputs_not_deep_copied :
    (observe cexClone.1 cexClone.2).outputs ≠ (observe cexOrig.1 cexOrig.2).outputs := by
  decide

theorem clone_sharing_isolation_witness :
    WF cexOrig.1 cexOrig.2
    ∧ observe cexOrig.1 (cloneCmd cexOrig.1 cexOrig.2).2 = observe cexOrig.1 cexOrig.2
    ∧ observe cexOrig.1
        (runOps [Op.audioBitrate "64k"] (cloneCmd cexOrig.1 cexOrig.2).1
          (cloneCmd cexOrig.1 cexOrig.2).2).2
      = observe cexOrig.1 (cloneCmd cexOrig.1 cexOrig.2).2 :=
  ⟨by decide, (clone_sharing_isolation cexOrig.1 cexOrig.2 (by decide)).2.1,
   (clone_sharing_isolation cexOrig.1 cexOrig.2
      (by decide)).2.2.2.2.2.2.1 [Op.audioBitrate "64k"]⟩

/-! ## Claim C3 -/

theorem applyOp_outputs_nonempty (op : Op) (c : CommandRef) (s : Store)
    (h : 1 ≤ c.outputs.length) : 1 ≤ ((applyOp op c s).1).outputs.length := by
  cases op with
  | input src => simpa [applyOp, addInput, Store.alloc] using h
  | output t =>
    cases hlast : c.outputs.getLast? with
    | none => simp [applyOp, addOutput, hlast]
    | some last =>
      by_cases htgt : last.target = none
      · simp [applyOp, addOutput, hlast, htgt]
      · simp [applyOp, addOutput, hlast, htgt]
  | inputOption ts => cases hlast : c.inputs.getLast? <;> simpa [applyOp, hlast] using h
  | outputOption ts => cases hlast : c.outputs.getLast? <;> simpa [applyOp, hlast] using h
  | globalOption ts => simpa [applyOp] using h
  | audioBitrate b => cases hlast : c.outputs.getLast? <;> simpa [applyOp, hlast] using h
  | videoCodec codec => cases hlast : c.outputs.getLast? <;> simpa [applyOp, hlast] using h
  | complexFilter g => simpa [applyOp] using h
  | removeOutputOption f n =>
    cases hlast : c.outputs.getLast? <;> simpa [applyOp, hlast] using h

theorem runOps_outputs_nonempty (ops : List Op) : ∀ (c : CommandRef) (s : Store),
    1 ≤ c.outputs.length → 1 ≤ ((runOps ops c s).1).outputs.length := by
  induction ops with
  | nil => intro c s h; exact h
  | cons op rest ih =>
    intro c s h
    exact ih _ _ (applyOp_outputs_nonempty op c s h)

theorem mkCommandCore_outputs (o : FfmpegOptions) (s : Store) :
    ((mkCommandCore o s).1).outputs.length = 1 := by
  by_cases h : truthy o.source <;>
    simp [mkCommandCore, addInput, addOutput, newOutput, h, Store.alloc]

/-- C3: construction itself creates exactly one default target-less output;
every modelled operation applied after construction preserves at least one
output; and clone() of a command with at least one output again yields a
command with at least one output, so the output list is never empty during a
command's lifetime. -/
theorem outputs_always_nonempty (o : FfmpegOptions) (s : Store) (ops : List Op) :
    ((mkCommandCore o s).1).outputs.length = 1
    ∧ 1 ≤ ((runOps ops (mkCommandCore o s).1 (mkCommandCore o s).2).1).outputs.length
    ∧ (∀ (c2 : CommandRef) (s2 : Store), 1 ≤ c2.outputs.length →
        1 ≤ ((cloneCmd c2 s2).1).outputs.length) := by
  refine ⟨mkCommandCore_outputs o s,
    runOps_outputs_nonempty ops _ _ (by rw [mkCommandCore_outputs o s]), ?_⟩
  intro c2 s2 h2
  rw [cloneCmd_ref]
  show 1 ≤ (cloneOutputs c2 (cloneInputs c2.inputs (mkCommandCore {} s2).2).2).1.length
  cases houts : c2.outputs with
  | nil =>
    rw [houts] at h2
    simp at h2
  | cons o0 rest =>
    by_cases htgt : o0.target.isSome
    · simp [cloneOutputs, houts, htgt]
    · simp [cloneOutputs, houts, htgt]

theorem outputs_always_nonempty_witness :
    ((mkCommandCore {} emptyStore).1).outputs.length = 1
    ∧ 1 ≤ ((runOps [Op.output "a.mp4", Op.output "b.mp4"]
        (mkCommandCore {} emptyStore).1 (mkCommandCore {} emptyStore).2).1).outputs.length
    ∧ 1 ≤ ((cloneCmd (mkCommandCore {} emptyStore).1
        (mkCommandCore {} emptyStore).2).1).outputs.length :=
  ⟨(outputs_always_nonempty {} emptyStore []).1,
   (outputs_always_nonempty {} emptyStore [Op.output "a.mp4", Op.output "b.mp4"]).2.1,
   (outputs_always_nonempty {} emptyStore []).2.2 _ _ (by decide)⟩

/-! ## Claim C2 -/

theorem marker_positions {α : Type} (G I R : List α) (a b : α) :
    (G ++ (I ++ ([a, b] ++ R)))[G.length + I.length]? = some a
    ∧ (G ++ (I ++ ([a, b] ++ R)))[G.length + I.length + 1]? = some b := by
  have h : G ++ (I ++ ([a, b] ++ R)) = (G ++ I) ++ (a :: b :: R) := by
    simp [List.append_assoc]
  rw [h]
  constructor
  · rw [show G.length + I.length = (G ++ I).length from by simp]
    rw [List.getElem?_append_right (Nat.le_refl _)]
    simp
  · rw [show G.length + I.length + 1 = (G ++ I).length + 1 from by simp]
    rw [List.getElem?_append_right (by omega)]
    simp

/-- C2: the assembler linearizes a one-input one-output command into global
options, then the input's options followed by its origin token, then the
complex filtergraph option, then the output's audio, audio-filter, video,
video-filter, size-filter and generic option groups followed by the target
token; in particular the origin marker sits right after the input options,
the source right after it, and the target token comes last. -/
theorem linearization_order (c : CommandRef) (s : Store) (i : InputRef)
    (o : OutputRef) (t : String)
    (hi : c.inputs = [i]) (ho : c.outputs = [o]) (ht : o.target = some t) :
    getArguments c s
      = s.read c.globalId
        ++ (s.read i.optionsId ++ ["-i", sourceToken i.source])
        ++ complexPart c s
        ++ (s.read o.audioId ++ s.read o.audioFiltersId ++ s.read o.videoId
            ++ s.read o.videoFiltersId ++ s.read o.sizeFiltersId ++ s.read o.optionsId
            ++ [t])
    ∧ (getArguments c s)[(s.read c.globalId).length + (s.read i.optionsId).length]?
        = some "-i"
    ∧ (getArguments c s)[(s.read c.globalId).length + (s.read i.optionsId).length + 1]?
        = some (sourceToken i.source)
    ∧ (getArguments c s).getLast? = some t := by
  have hdec : getArguments c s
      = s.read c.globalId
        ++ (s.read i.optionsId ++ ["-i", sourceToken i.source])
        ++ complexPart c s
        ++ (s.read o.audioId ++ s.read o.audioFiltersId ++ s.read o.videoId
            ++ s.read o.videoFiltersId ++ s.read o.sizeFiltersId ++ s.read o.optionsId
            ++ [t]) := by
    simp only [getArguments, hi, ho, List.flatMap_cons, List.flatMap_nil,
      List.append_nil, outputPart, ht]
  have hshape : getArguments c s
      = s.read c.globalId ++ (s.read i.optionsId
          ++ (["-i", sourceToken i.source]
              ++ (complexPart c s
                  ++ (s.read o.audioId ++ s.read o.audioFiltersId ++ s.read o.videoId
                      ++ s.read o.videoFiltersId ++ s.read o.sizeFiltersId
                      ++ s.read o.optionsId ++ [t])))) := by
    rw [hdec]
    simp [List.append_assoc]
  have hmark := marker_positions (s.read c.globalId) (s.read i.optionsId)
    (complexPart c s
      ++ (s.read o.audioId ++ s.read o.audioFiltersId ++ s.read o.videoId
          ++ s.read o.videoFiltersId ++ s.read o.sizeFiltersId
          ++ s.read o.optionsId ++ [t]))
    "-i" (sourceToken i.source)
  refine ⟨hdec, ?_, ?_, ?_⟩
  · rw [hshape]
    exact hmark.1
  · rw [hshape]
    exact hmark.2
  · rw [hdec]
    have hlast : s.read c.globalId
        ++ (s.read i.optionsId ++ ["-i", sourceToken i.source])
        ++ complexPart c s
        ++ (s.read o.audioId ++ s.read o.audioFiltersId ++ s.read o.videoId
            ++ s.read o.videoFiltersId ++ s.read o.sizeFiltersId ++ s.read o.optionsId
            ++ [t])
        = (s.read c.globalId
            ++ (s.read i.optionsId ++ ["-i", sourceToken i.source])
            ++ complexPart c s
            ++ (s.read o.audioId ++ s.read o.audioFiltersId ++ s.read o.videoId
                ++ s.read o.videoFiltersId ++ s.read o.sizeFiltersId
                ++ s.read o.optionsId)) ++ [t] := by
      simp [List.append_assoc]
    rw [hlast, List.getLast?_concat]

/-- A concrete one-input one-output command for the linearization witness:
one input option (given in the split convenience form), one audio bitrate,
one output target. -/
def linCmd : CommandRef × Store :=
  runOps [Op.inputOption ["-ss 30"], Op.audioBitrate "128k", Op.output "output.mp4"]
    (mkCommandCore { source := JSVal.str "input.avi" } emptyStore).1
    (mkCommandCore { source := JSVal.str "input.avi" } emptyStore).2

theorem linearization_order_witness :
    (getArguments linCmd.1 linCmd.2)[2]? = some "-i"
    ∧ (getArguments linCmd.1 linCmd.2)[3]? = some "input.avi"
    ∧ (getArguments linCmd.1 linCmd.2).getLast? = some "output.mp4"
    ∧ getArguments linCmd.1 linCmd.2
        = ["-ss", "30", "-i", "input.avi", "-b:a", "128k", "output.mp4"] := by
  have h := linearization_order linCmd.1 linCmd.2
    ⟨JSVal.str "input.avi", 0⟩
    ⟨some "output.mp4", [], none, 1, 2, 3, 4, 5, 6⟩
    "output.mp4" (by decide) (by decide) (by decide)
  exact ⟨by rw [h.1]; decide, by rw [h.1]; decide, h.2.2.2, by rw [h.1]; decide⟩

/-! ## Claims C8, C9, C10 -/

theorem getD_append_self {α : Type} (l : List α) (x d : α) :
    (l ++ [x]).getD l.length d = x := by
  have h := getD_append_add l [x] 0 d
  rw [Nat.add_zero] at h
  rw [h]
  rfl

theorem commandOptions_mkCommandCore (o : FfmpegOptions) (s : Store) :
    commandOptions (mkCommandCore o s).1 (mkCommandCore o s).2 = resolveOptions o := by
  show (_ ++ [resolveOptions o]).getD _ _ = resolveOptions o
  exact getD_append_self _ _ _

/-- C8: the stored stdoutLines equals the caller-supplied value whenever the
key is present in the options object, including an explicit 0, and equals
100 when the key is absent (a presence test with the in operator, not a
truthiness test). -/
theorem stdoutLines_stored (o : FfmpegOptions) (s : Store) :
    (∀ k : Int, o.stdoutLines = some k →
      (commandOptions (mkCommandCore o s).1 (mkCommandCore o s).2).stdoutLines = k)
    ∧ (o.stdoutLines = none →
      (commandOptions (mkCommandCore o s).1 (mkCommandCore o s).2).stdoutLines = 100) := by
  constructor
  · intro k hk
    rw [commandOptions_mkCommandCore]
    simp [resolveOptions, hk]
  · intro hk
    rw [commandOptions_mkCommandCore]
    simp [resolveOptions, hk]

theorem stdoutLines_stored_witness :
    ({ stdoutLines := some 0 } : FfmpegOptions).stdoutLines = some 0
    ∧ (commandOptions (mkCommandCore { stdoutLines := some 0 } emptyStore).1
        (mkCommandCore { stdoutLines := some 0 } emptyStore).2).stdoutLines = 0
    ∧ (commandOptions (mkCommandCore {} emptyStore).1
        (mkCommandCore {} emptyStore).2).stdoutLines = 100 :=
  ⟨rfl, (stdoutLines_stored { stdoutLines := some 0 } emptyStore).1 0 rfl,
   (stdoutLines_stored {} emptyStore).2 rfl⟩

/-- C10: the stored niceness is computed by falsy coalescing
niceness or priority or 0, so an explicit niceness of 0 together with a
nonzero priority stores the priority value. -/
theorem niceness_falsy_coalescing (o : FfmpegOptions) (s : Store) :
    (commandOptions (mkCommandCore o s).1 (mkCommandCore o s).2).niceness
        = orNum o.niceness (orNum o.priority 0)
    ∧ (∀ p : Int, o.niceness = some 0 → o.priority = some p → p ≠ 0 →
        (commandOptions (mkCommandCore o s).1 (mkCommandCore o s).2).niceness = p) := by
  have hco := commandOptions_mkCommandCore o s
  constructor
  · rw [hco]
    rfl
  · intro p hn hp hpz
    rw [hco]
    simp [resolveOptions, orNum, hn, hp, hpz]

theorem niceness_falsy_coalescing_witness :
    (commandOptions
        (mkCommandCore { niceness := some 0, priority := some 10 } emptyStore).1
        (mkCommandCore { niceness := some 0, priority := some 10 } emptyStore).2).niceness
      = 10 :=
  (niceness_falsy_coalescing { niceness := some 0, priority := some 10 }
    emptyStore).2 10 rfl rfl (by decide)

theorem mkCommandCore_inputs (o : FfmpegOptions) (s : Store) :
    (mkCommandCore o s).1.inputs
      = if truthy o.source
        then [{ source := o.source, optionsId := s.argLists.length }]
        else [] := by
  by_cases h : truthy o.source <;>
    simp [mkCommandCore, addInput, addOutput, newOutput, Store.alloc, h]

/-- C9 counterexample: the empty string is a non-null value that is neither
an options object nor null, so the claim says it is registered as an input
via input(); the constructor however registers options.source only when it
is truthy, so no input is registered. -/
theorem ctor_empty_string_not_registered :
    (mkCommand (CtorArg.val (JSVal.str "")) none emptyStore).map
      (fun r => r.1.inputs) = Except.ok [] := rfl

/-- C9 (amended): a non-null object without a readable property is treated
as the options object, and an input is registered exactly when that object's
source property is truthy; any other non-null first argument is assigned to
options.source and registered via input() exactly when truthy (in particular
an empty string or the number 0 registers nothing); null passes the typeof
object test and makes the constructor throw in the readable-in-input test. -/
theorem ctor_input_dispatch (s : Store) :
    (∀ o? : Option FfmpegOptions,
      mkCommand (CtorArg.val JSVal.null) o? s
        = Except.error "TypeError: cannot use the in operator on null")
    ∧ (∀ o : FfmpegOptions,
      (mkCommand (CtorArg.opts o) none s).map (fun r => r.1.inputs.map InputRef.source)
        = Except.ok (if truthy o.source then [o.source] else []))
    ∧ (∀ (v : JSVal) (o? : Option FfmpegOptions), v ≠ JSVal.null →
      (mkCommand (CtorArg.val v) o? s).map (fun r => r.1.inputs.map InputRef.source)
        = Except.ok (if truthy v then [v] else [])) := by
  refine ⟨fun o? => rfl, ?_, ?_⟩
  · intro o
    show Except.ok ((mkCommandCore o s).1.inputs.map InputRef.source) = _
    rw [mkCommandCore_inputs]
    by_cases h : truthy o.source <;> simp [h]
  · intro v o? hv
    have hm : mkCommand (CtorArg.val v) o? s
        = Except.ok (mkCommandCore { o?.getD {} with source := v } s) := by
      cases v with
      | null => exact absurd rfl hv
      | undef => rfl
      | str t => rfl
      | num n => rfl
      | stream k => rfl
    rw [hm]
    show Except.ok ((mkCommandCore { o?.getD {} with source := v } s).1.inputs.map
      InputRef.source) = _
    rw [mkCommandCore_inputs]
    by_cases h : truthy v <;> simp [h]

theorem ctor_input_dispatch_witness :
    mkCommand (CtorArg.val JSVal.null) none emptyStore
      = Except.error "TypeError: cannot use the in operator on null"
    ∧ (mkCommand (CtorArg.opts { source := JSVal.str "src.avi" }) none emptyStore).map
        (fun r => r.1.inputs.map InputRef.source) = Except.ok [JSVal.str "src.avi"]
    ∧ (mkCommand (CtorArg.val (JSVal.num 0)) none emptyStore).map
        (fun r => r.1.inputs.map InputRef.source) = Except.ok [] :=
  ⟨(ctor_input_dispatch emptyStore).1 none,
   by
     have h := (ctor_input_dispatch emptyStore).2.1 { source := JSVal.str "src.avi" }
     simpa [truthy] using h,
   by
     have h := (ctor_input_dispatch emptyStore).2.2 (JSVal.num 0) none (by decide)
     simpa [truthy] using h⟩

end FluentFfmpeg
